import Mathlib

/-!
# A hash-linked ledger of book checkouts (`main.go`)

Shallow embedding of the block construction and chain validation code of
`main.go`, together with the library routines it calls (`crypto/sha256`,
`encoding/hex`, `encoding/json` on `BookCheckout`, and the conversion
`string(int)`).

Modelling conventions.

* A Go `string` is an arbitrary sequence of bytes: `GoString = List Byte`.
* A Go `int` is a 64-bit two's complement integer: values are `Int`s and
  `prevBlock.Pos + 1` is computed by `intAdd`, which wraps.
* `*Block` receivers are mutated in place in the source; here every such
  method returns the block after the call (explicit state passing).
* `time.Now().String()` is the only input from the environment; it is passed
  as the argument `now`.
* Indexing an empty slice panics; `AddBlock` returns `none` there.
-/

namespace BookLedger

/-! ## Bytes and strings -/

/-- A byte. -/
abbrev Byte := Fin 256

/-- A Go string: a read-only sequence of bytes, not necessarily valid UTF-8. -/
abbrev GoString := List Byte

/-- Byte with the given value (reduced modulo 256, as Go's `byte(x)`). -/
def byteOf (n : Nat) : Byte := ⟨n % 256, Nat.mod_lt n (by decide)⟩

/-! ## `crypto/sha256` (FIPS 180-4), on 32-bit words held in `Nat` -/

/-- Addition modulo `2^32`. -/
def add32 (a b : Nat) : Nat := (a + b) % 4294967296

/-- Right rotation of a 32-bit word. -/
def rotr32 (x n : Nat) : Nat := ((x >>> n) ||| (x <<< (32 - n))) % 4294967296

/-- Bitwise complement of a 32-bit word. -/
def not32 (x : Nat) : Nat := x ^^^ 4294967295

def shaCh (x y z : Nat) : Nat := (x &&& y) ^^^ (not32 x &&& z)

def shaMaj (x y z : Nat) : Nat := (x &&& y) ^^^ (x &&& z) ^^^ (y &&& z)

def bigSigma0 (x : Nat) : Nat := rotr32 x 2 ^^^ rotr32 x 13 ^^^ rotr32 x 22

def bigSigma1 (x : Nat) : Nat := rotr32 x 6 ^^^ rotr32 x 11 ^^^ rotr32 x 25

def smallSigma0 (x : Nat) : Nat := rotr32 x 7 ^^^ rotr32 x 18 ^^^ (x >>> 3)

def smallSigma1 (x : Nat) : Nat := rotr32 x 17 ^^^ rotr32 x 19 ^^^ (x >>> 10)

/-- The 64 round constants. -/
def shaK : List Nat :=
  [0x428a2f98, 0x71374491, 0xb5c0fbcf, 0xe9b5dba5, 0x3956c25b, 0x59f111f1, 0x923f82a4, 0xab1c5ed5,
   0xd807aa98, 0x12835b01, 0x243185be, 0x550c7dc3, 0x72be5d74, 0x80deb1fe, 0x9bdc06a7, 0xc19bf174,
   0xe49b69c1, 0xefbe4786, 0x0fc19dc6, 0x240ca1cc, 0x2de92c6f, 0x4a7484aa, 0x5cb0a9dc, 0x76f988da,
   0x983e5152, 0xa831c66d, 0xb00327c8, 0xbf597fc7, 0xc6e00bf3, 0xd5a79147, 0x06ca6351, 0x14292967,
   0x27b70a85, 0x2e1b2138, 0x4d2c6dfc, 0x53380d13, 0x650a7354, 0x766a0abb, 0x81c2c92e, 0x92722c85,
   0xa2bfe8a1, 0xa81a664b, 0xc24b8b70, 0xc76c51a3, 0xd192e819, 0xd6990624, 0xf40e3585, 0x106aa070,
   0x19a4c116, 0x1e376c08, 0x2748774c, 0x34b0bcb5, 0x391c0cb3, 0x4ed8aa4a, 0x5b9cca4f, 0x682e6ff3,
   0x748f82ee, 0x78a5636f, 0x84c87814, 0x8cc70208, 0x90befffa, 0xa4506ceb, 0xbef9a3f7, 0xc67178f2]

/-- The eight working variables / chaining value. -/
structure ShaState where
  a : Nat
  b : Nat
  c : Nat
  d : Nat
  e : Nat
  f : Nat
  g : Nat
  h : Nat
deriving DecidableEq, Repr

/-- The initial hash value. -/
def shaInit : ShaState :=
  ⟨0x6a09e667, 0xbb67ae85, 0x3c6ef372, 0xa54ff53a, 0x510e527f, 0x9b05688c, 0x1f83d9ab, 0x5be0cd19⟩

/-- Padding: a `0x80` byte, zero bytes up to 56 modulo 64, then the bit length
as a 64-bit big-endian integer. -/
def shaPad (msg : List Byte) : List Byte :=
  let len := msg.length
  let bits := (len * 8) % 18446744073709551616
  msg ++ [byteOf 0x80] ++ List.replicate ((119 - len % 64) % 64) (byteOf 0)
    ++ (List.range 8).map (fun i => byteOf (bits >>> (8 * (7 - i))))

/-- Big-endian 32-bit words of a byte sequence (a trailing partial word is dropped). -/
def beWords : List Byte → List Nat
  | b0 :: b1 :: b2 :: b3 :: rest =>
      (b0.val * 16777216 + b1.val * 65536 + b2.val * 256 + b3.val) :: beWords rest
  | _ => []

/-- Extends a message schedule by `n` further words. -/
def shaExtend : Nat → List Nat → List Nat
  | 0, w => w
  | n + 1, w =>
      let t := w.length
      let x := add32 (add32 (smallSigma1 (w.getD (t - 2) 0)) (w.getD (t - 7) 0))
                 (add32 (smallSigma0 (w.getD (t - 15) 0)) (w.getD (t - 16) 0))
      shaExtend n (w ++ [x])

/-- One round of the compression function with round constant `k` and schedule word `w`. -/
def shaRound (s : ShaState) (kw : Nat × Nat) : ShaState :=
  let t1 := add32 (add32 (add32 (add32 s.h (bigSigma1 s.e)) (shaCh s.e s.f s.g)) kw.1) kw.2
  let t2 := add32 (bigSigma0 s.a) (shaMaj s.a s.b s.c)
  ⟨add32 t1 t2, s.a, s.b, s.c, add32 s.d t1, s.e, s.f, s.g⟩

/-- Compression of one 64-byte block, given as sixteen words. -/
def shaBlock (s : ShaState) (block : List Nat) : ShaState :=
  let r := (shaK.zip (shaExtend 48 block)).foldl shaRound s
  ⟨add32 s.a r.a, add32 s.b r.b, add32 s.c r.c, add32 s.d r.d,
   add32 s.e r.e, add32 s.f r.f, add32 s.g r.g, add32 s.h r.h⟩

/-- Processes a padded message sixteen words at a time. -/
def shaBlocks : Nat → ShaState → List Nat → ShaState
  | 0, s, _ => s
  | n + 1, s, ws => shaBlocks n (shaBlock s (ws.take 16)) (ws.drop 16)

/-- Big-endian bytes of a 32-bit word. -/
def wordBytes (w : Nat) : List Byte :=
  [byteOf (w >>> 24), byteOf (w >>> 16), byteOf (w >>> 8), byteOf w]

/-- SHA-256 digest (32 bytes) of a byte sequence: `sha256.New()`, `Write`, `Sum(nil)`. -/
def sha256 (msg : List Byte) : List Byte :=
  let ws := beWords (shaPad msg)
  let s := shaBlocks (ws.length / 16) shaInit ws
  [s.a, s.b, s.c, s.d, s.e, s.f, s.g, s.h].flatMap wordBytes

/-! ## `encoding/hex` -/

/-- The digit of `hextable = "0123456789abcdef"` for a value below 16. -/
def hexDigit (n : Nat) : Byte := if n < 10 then byteOf (48 + n) else byteOf (87 + n)

/-- Lower-case hexadecimal encoding, two digits per byte (`hex.EncodeToString`). -/
def hexEncode (bs : List Byte) : GoString :=
  bs.flatMap (fun b => [hexDigit (b.val / 16), hexDigit (b.val % 16)])

/-! ## `string(i)` for an integer `i` -/

/-- The replacement character U+FFFD (`utf8.RuneError`). -/
def runeError : Nat := 0xFFFD

/-- UTF-8 encoding of a code point (`utf8.AppendRune`): one to four bytes; a
surrogate or a value above U+10FFFF is encoded as U+FFFD. -/
def encodeRune (r : Nat) : GoString :=
  if r ≤ 0x7F then [byteOf r]
  else if r ≤ 0x7FF then [byteOf (0xC0 + r / 64), byteOf (0x80 + r % 64)]
  else if 0x10FFFF < r ∨ (0xD800 ≤ r ∧ r ≤ 0xDFFF) then [byteOf 0xEF, byteOf 0xBF, byteOf 0xBD]
  else if r ≤ 0xFFFF then
    [byteOf (0xE0 + r / 4096), byteOf (0x80 + r / 64 % 64), byteOf (0x80 + r % 64)]
  else
    [byteOf (0xF0 + r / 262144), byteOf (0x80 + r / 4096 % 64), byteOf (0x80 + r / 64 % 64),
     byteOf (0x80 + r % 64)]

/-- The conversion `string(i)` of an `int`: the UTF-8 encoding of the code point
`i`, and of U+FFFD when `i` is not a code point (negative or too large). -/
def intToString (i : Int) : GoString :=
  if 0 ≤ i ∧ i ≤ 0x10FFFF then encodeRune i.toNat else encodeRune runeError

/-! ## `encoding/json` on `BookCheckout` -/

/-- Row of the lead-byte table of `unicode/utf8` for a byte `≥ 0x80`: the
length of the sequence it starts and the accepted range of the second byte, or
`none` when the byte cannot start a sequence. -/
def leadInfo (b : Nat) : Option (Nat × Nat × Nat) :=
  if b < 0xC2 then none
  else if b < 0xE0 then some (2, 0x80, 0xBF)
  else if b = 0xE0 then some (3, 0xA0, 0xBF)
  else if b = 0xED then some (3, 0x80, 0x9F)
  else if b < 0xF0 then some (3, 0x80, 0xBF)
  else if b = 0xF0 then some (4, 0x90, 0xBF)
  else if b < 0xF4 then some (4, 0x80, 0xBF)
  else if b = 0xF4 then some (4, 0x80, 0x8F)
  else none

/-- Whether `b` is a continuation byte `10xxxxxx`. -/
def isCont (b : Byte) : Bool := 0x80 ≤ b.val && b.val ≤ 0xBF

/-- The code point at the head of `s` and its width in bytes
(`utf8.DecodeRuneInString`); `(runeError, 1)` when the head is not the start
of a well-formed sequence. Only the first four bytes are inspected. -/
def decodeRune : List Byte → Nat × Nat
  | [] => (runeError, 0)
  | s0 :: rest =>
    if s0.val < 0x80 then (s0.val, 1)
    else
      match leadInfo s0.val, rest with
      | none, _ => (runeError, 1)
      | some _, [] => (runeError, 1)
      | some (sz, lo, hi), s1 :: rest1 =>
        if s1.val < lo ∨ hi < s1.val then (runeError, 1)
        else if sz ≤ 2 then (s0.val % 32 * 64 + s1.val % 64, 2)
        else
          match rest1 with
          | [] => (runeError, 1)
          | s2 :: rest2 =>
            if !isCont s2 then (runeError, 1)
            else if sz ≤ 3 then (s0.val % 16 * 4096 + s1.val % 64 * 64 + s2.val % 64, 3)
            else
              match rest2 with
              | [] => (runeError, 1)
              | s3 :: _ =>
                if !isCont s3 then (runeError, 1)
                else (s0.val % 8 * 262144 + s1.val % 64 * 4096 + s2.val % 64 * 64
                        + s3.val % 64, 4)

/-- Membership in `htmlSafeSet`: the ASCII bytes that `json.Marshal` copies
unchanged, namely `0x20 .. 0x7f` except the double quote, the ampersand, the
angle brackets and the backslash. -/
def htmlSafe (b : Byte) : Bool :=
  0x20 ≤ b.val && b.val < 0x80 && b.val != 0x22 && b.val != 0x26 && b.val != 0x3C
    && b.val != 0x3E && b.val != 0x5C

/-- What the encoder writes for an ASCII byte outside `htmlSafeSet`: a
backslash followed by the byte itself (quote, backslash), by one of the letters
`b f n r t`, or by `u00` and two hexadecimal digits (the letters `b` and `f`
are written since Go 1.22; earlier releases write `u0008` and `u000c`). -/
def escapeAscii (b : Byte) : GoString :=
  if b.val = 0x5C ∨ b.val = 0x22 then [byteOf 0x5C, b]
  else if b.val = 0x08 then [byteOf 0x5C, byteOf 0x62]
  else if b.val = 0x0C then [byteOf 0x5C, byteOf 0x66]
  else if b.val = 0x0A then [byteOf 0x5C, byteOf 0x6E]
  else if b.val = 0x0D then [byteOf 0x5C, byteOf 0x72]
  else if b.val = 0x09 then [byteOf 0x5C, byteOf 0x74]
  else [byteOf 0x5C, byteOf 0x75, byteOf 0x30, byteOf 0x30, hexDigit (b.val / 16),
        hexDigit (b.val % 16)]

/-- The six ASCII characters backslash, `u`, `f`, `f`, `f`, `d`. -/
def escapedRuneError : GoString :=
  [byteOf 0x5C, byteOf 0x75, byteOf 0x66, byteOf 0x66, byteOf 0x66, byteOf 0x64]

/-- The loop of the string encoder over the remaining input. ASCII bytes are
copied or escaped; a byte that starts no well-formed UTF-8 sequence is replaced
by `escapedRuneError`; U+2028 and U+2029 are written as backslash, `u202` and
the digit `8` or `9`; every other sequence is copied. The first argument bounds
the number of iterations. -/
def appendStringLoop : Nat → List Byte → GoString
  | 0, _ => []
  | _ + 1, [] => []
  | fuel + 1, b :: rest =>
    if b.val < 0x80 then
      (if htmlSafe b then [b] else escapeAscii b) ++ appendStringLoop fuel rest
    else
      let cs := decodeRune (b :: rest)
      if cs.1 = runeError ∧ cs.2 = 1 then
        escapedRuneError ++ appendStringLoop fuel rest
      else if cs.1 = 0x2028 ∨ cs.1 = 0x2029 then
        [byteOf 0x5C, byteOf 0x75, byteOf 0x32, byteOf 0x30, byteOf 0x32, hexDigit (cs.1 % 16)]
          ++ appendStringLoop fuel (rest.drop (cs.2 - 1))
      else
        (b :: rest).take cs.2 ++ appendStringLoop fuel (rest.drop (cs.2 - 1))

/-- JSON encoding of a string value: the escaped contents between double quotes. -/
def jsonString (s : GoString) : GoString :=
  byteOf 0x22 :: (appendStringLoop s.length s ++ [byteOf 0x22])

/-- JSON encoding of a boolean: `true` or `false`. -/
def jsonBool (b : Bool) : GoString :=
  if b then [byteOf 0x74, byteOf 0x72, byteOf 0x75, byteOf 0x65]
  else [byteOf 0x66, byteOf 0x61, byteOf 0x6C, byteOf 0x73, byteOf 0x65]

/-! ## The data model of `main.go` -/

/-- The payload of a block (`type BookCheckout struct`). -/
structure BookCheckout where
  BookID : GoString
  User : GoString
  CheckoutDate : GoString
  IsGenesis : Bool
deriving DecidableEq, Repr

/-- A block of the chain (`type Block struct`). -/
structure Block where
  Pos : Int
  Data : BookCheckout
  TimeStamp : GoString
  Hash : GoString
  PrevHash : GoString
deriving DecidableEq, Repr

/-- The chain (`type Blockchain struct`); the slice of block pointers is the
list of the blocks pointed to. -/
structure Blockchain where
  blocks : List Block
deriving DecidableEq, Repr

/-- The zero value `BookCheckout{}`. -/
def BookCheckout.zero : BookCheckout := ⟨[], [], [], false⟩

/-- The zero value `Block{}`. -/
def Block.zero : Block := ⟨0, BookCheckout.zero, [], [], []⟩

/-- Reduction of an integer to the range of a 64-bit `int`. -/
def wrapInt (x : Int) : Int :=
  (x + 9223372036854775808) % 18446744073709551616 - 9223372036854775808

/-- Addition of two `int`s, which wraps around on overflow. -/
def intAdd (a b : Int) : Int := wrapInt (a + b)

/-- The largest `int`. -/
def maxInt : Int := 9223372036854775807

/-- An `int` value: within `-2^63 .. 2^63 - 1`. -/
def IsInt (x : Int) : Prop := -9223372036854775808 ≤ x ∧ x ≤ 9223372036854775807

instance (x : Int) : Decidable (IsInt x) := by unfold IsInt; infer_instance

/-- The output of `json.Marshal(b.Data)`: an object with the keys `book_id`,
`user`, `checkout_date` and `is_genesis` of the struct tags, in field order,
without white space. Marshalling this struct cannot fail. -/
def jsonMarshal (d : BookCheckout) : GoString :=
  -- {"book_id":
  [byteOf 0x7B, byteOf 0x22, byteOf 0x62, byteOf 0x6F, byteOf 0x6F, byteOf 0x6B, byteOf 0x5F,
   byteOf 0x69, byteOf 0x64, byteOf 0x22, byteOf 0x3A]
  ++ jsonString d.BookID
  -- ,"user":
  ++ [byteOf 0x2C, byteOf 0x22, byteOf 0x75, byteOf 0x73, byteOf 0x65, byteOf 0x72, byteOf 0x22,
      byteOf 0x3A]
  ++ jsonString d.User
  -- ,"checkout_date":
  ++ [byteOf 0x2C, byteOf 0x22, byteOf 0x63, byteOf 0x68, byteOf 0x65, byteOf 0x63, byteOf 0x6B,
      byteOf 0x6F, byteOf 0x75, byteOf 0x74, byteOf 0x5F, byteOf 0x64, byteOf 0x61, byteOf 0x74,
      byteOf 0x65, byteOf 0x22, byteOf 0x3A]
  ++ jsonString d.CheckoutDate
  -- ,"is_genesis":
  ++ [byteOf 0x2C, byteOf 0x22, byteOf 0x69, byteOf 0x73, byteOf 0x5F, byteOf 0x67, byteOf 0x65,
      byteOf 0x6E, byteOf 0x65, byteOf 0x73, byteOf 0x69, byteOf 0x73, byteOf 0x22, byteOf 0x3A]
  ++ jsonBool d.IsGenesis
  -- closing brace
  ++ [byteOf 0x7D]

/-! ## Hashing, construction and validation -/

/-- The string `data` that `generateHash` feeds to SHA-256:
`string(b.Pos) + b.TimeStamp + string(bytes) + b.PrevHash`. -/
def hashInput (b : Block) : GoString :=
  intToString b.Pos ++ b.TimeStamp ++ jsonMarshal b.Data ++ b.PrevHash

/-- The hash recomputed from `Pos`, `TimeStamp`, `Data` and `PrevHash`. -/
def recomputeHash (b : Block) : GoString := hexEncode (sha256 (hashInput b))

/-- The method `(b *Block) generateHash()`: the block after the call. -/
def generateHash (b : Block) : Block :=
  { b with Hash := recomputeHash b }

set_option linter.unusedVariables false in
/-- The function `CreateBlock(prevBlock, checkoutitem)`, where `now` is the value
of `time.Now().String()`. The argument `checkoutitem` is not used by the body,
so `Data` keeps the zero value of `&Block{}`. -/
def CreateBlock (now : GoString) (prevBlock : Block) (checkoutitem : BookCheckout) : Block :=
  let block := Block.zero
  let block := { block with Pos := intAdd prevBlock.Pos 1 }
  let block := { block with TimeStamp := now }
  let block := { block with PrevHash := prevBlock.Hash }
  generateHash block

/-- The method `(b *Block) validateHash(hash)`: the result and the block after
the call. -/
def validateHash (b : Block) (hash : GoString) : Bool × Block :=
  let b := generateHash b
  if b.Hash ≠ hash then (false, b) else (true, b)

/-- The function `validBlock(block, prevBlock)`: the result and `block` after the
call. The only write is to `block.Hash`, after `prevBlock.Hash` has been read,
so the result is the same when both pointers are equal. -/
def validBlock (block prevBlock : Block) : Bool × Block :=
  if prevBlock.Hash ≠ block.PrevHash then (false, block)
  else
    let r := validateHash block block.Hash
    if !r.1 then (false, r.2)
    else if intAdd prevBlock.Pos 1 ≠ r.2.Pos then (false, r.2)
    else (true, r.2)

/-- The method `(bc *Blockchain) AddBlock(data)`: the chain after the call, or
`none` when the index `len(bc.blocks)-1` is out of range. -/
def AddBlock (now : GoString) (data : BookCheckout) (bc : Blockchain) : Option Blockchain :=
  match bc.blocks[bc.blocks.length - 1]? with
  | none => none
  | some prevBlock =>
    let block := CreateBlock now prevBlock data
    let r := validBlock block prevBlock
    if r.1 then some ⟨bc.blocks ++ [r.2]⟩ else some bc

/-- The function `GenesisBlock()`. -/
def GenesisBlock (now : GoString) : Block :=
  CreateBlock now Block.zero { BookCheckout.zero with IsGenesis := true }

/-- The function `NewBlockchain()`. -/
def NewBlockchain (now : GoString) : Blockchain := ⟨[GenesisBlock now]⟩

/-- The chains reachable from `NewBlockchain()` by calls of `AddBlock`, with any
payloads and any clock values. -/
inductive Reachable : Blockchain → Prop
  | init (now : GoString) : Reachable (NewBlockchain now)
  | add {bc bc2 : Blockchain} (now : GoString) (data : BookCheckout) :
      Reachable bc → AddBlock now data bc = some bc2 → Reachable bc2

/-- The chain after `NewBlockchain()` at clock value `now0` followed by one
`AddBlock` call for each element of `calls` (clock value and payload), in order. -/
def runCalls (now0 : GoString) (calls : List (GoString × BookCheckout)) : Option Blockchain :=
  calls.foldl (fun st c => st.bind (AddBlock c.1 c.2)) (some (NewBlockchain now0))

/-! ## The hash as the specification words it -/

/-- Decimal digits of a natural number, most significant first; `fuel` bounds
the number of digits. -/
def decimalDigits : Nat → Nat → List Byte
  | 0, _ => []
  | fuel + 1, n => if n < 10 then [byteOf (48 + n)] else decimalDigits fuel (n / 10) ++ [byteOf (48 + n % 10)]

/-- The decimal string of an integer (`strconv.Itoa`). -/
def decimalString (i : Int) : GoString :=
  if i < 0 then byteOf 0x2D :: decimalDigits (i.natAbs + 1) i.natAbs
  else decimalDigits (i.natAbs + 1) i.natAbs

/-- The hash input as the specification describes it: the decimal string of the
position, the timestamp, the serialized payload and the previous hash. -/
def specHashInput (b : Block) : GoString :=
  decimalString b.Pos ++ b.TimeStamp ++ jsonMarshal b.Data ++ b.PrevHash

/-- The hash as the specification describes it. -/
def specHash (b : Block) : GoString := hexEncode (sha256 (specHashInput b))

/-! ## Well-formed UTF-8 and the inverse of the string encoder -/

/-- The loop of `utf8.ValidString`: no position at which decoding yields
`(runeError, 1)`. The first argument bounds the number of iterations. -/
def validUTF8Loop : Nat → List Byte → Bool
  | 0, _ => true
  | _ + 1, [] => true
  | fuel + 1, b :: rest =>
    let cs := decodeRune (b :: rest)
    if cs.1 = runeError ∧ cs.2 = 1 then false
    else validUTF8Loop fuel (rest.drop (cs.2 - 1))

/-- Whether a string is well-formed UTF-8 (`utf8.ValidString`). -/
def validUTF8 (s : GoString) : Bool := validUTF8Loop s.length s

/-- A payload whose three string fields are well-formed UTF-8. -/
def ValidPayload (d : BookCheckout) : Prop :=
  validUTF8 d.BookID = true ∧ validUTF8 d.User = true ∧ validUTF8 d.CheckoutDate = true

instance (d : BookCheckout) : Decidable (ValidPayload d) := by
  unfold ValidPayload; infer_instance

/-- Value of a hexadecimal digit `0-9a-f`. -/
def unhex (c : Byte) : Nat := if c.val < 0x3A then c.val - 0x30 else c.val - 0x57

/-- The byte denoted by a one-letter escape: `b f n r t`, or the quote or
backslash itself. -/
def unescapeLetter (e : Byte) : Byte :=
  if e.val = 0x62 then byteOf 0x08
  else if e.val = 0x66 then byteOf 0x0C
  else if e.val = 0x6E then byteOf 0x0A
  else if e.val = 0x72 then byteOf 0x0D
  else if e.val = 0x74 then byteOf 0x09
  else e

/-- Reads an encoded string body up to its closing quote: the bytes it denotes
and the text after the quote. It inverts `appendStringLoop` on well-formed
UTF-8 (an escape `u00XY` denotes the byte `XY`, any other `u` escape written
by the encoder for well-formed input is `u2028` or `u2029`). -/
def unescape : List Byte → Option (GoString × GoString)
  | [] => none
  | c :: rest =>
    if c.val = 0x22 then some ([], rest)
    else if c.val = 0x5C then
      match rest with
      | [] => none
      | e :: rest1 =>
        if e.val = 0x75 then
          match rest1 with
          | h1 :: _ :: h3 :: h4 :: rest2 =>
            if h1.val = 0x30 then
              (unescape rest2).map (fun r => (byteOf (unhex h3 * 16 + unhex h4) :: r.1, r.2))
            else
              (unescape rest2).map
                (fun r => (byteOf 0xE2 :: byteOf 0x80 :: byteOf (0xA0 + unhex h4) :: r.1, r.2))
          | _ => none
        else (unescape rest1).map (fun r => (unescapeLetter e :: r.1, r.2))
    else (unescape rest).map (fun r => (c :: r.1, r.2))

/-! ## Sample data -/

/-- A clock value, the characters `t0`. -/
def sampleTime0 : GoString := [byteOf 0x74, byteOf 0x30]

/-- A later clock value, the characters `t1`. -/
def sampleTime1 : GoString := [byteOf 0x74, byteOf 0x31]

/-- The checkout of book `abc` by `alice` on `2024-01-01`. -/
def sampleCheckout : BookCheckout :=
  { BookID := [byteOf 0x61, byteOf 0x62, byteOf 0x63]
    User := [byteOf 0x61, byteOf 0x6C, byteOf 0x69, byteOf 0x63, byteOf 0x65]
    CheckoutDate := [byteOf 0x32, byteOf 0x30, byteOf 0x32, byteOf 0x34, byteOf 0x2D, byteOf 0x30,
                     byteOf 0x31, byteOf 0x2D, byteOf 0x30, byteOf 0x31]
    IsGenesis := false }

/-- The chain after `NewBlockchain()` and one `AddBlock(sampleCheckout)`. -/
def sampleChain : Blockchain :=
  ⟨[GenesisBlock sampleTime0, CreateBlock sampleTime1 (GenesisBlock sampleTime0) sampleCheckout]⟩

/-- A payload whose `BookID` is the single byte `0xFF`, which is not UTF-8. -/
def payloadFF : BookCheckout := ⟨[byteOf 0xFF], [], [], false⟩

/-- A payload whose `BookID` is the single byte `0xFE`, which is not UTF-8. -/
def payloadFE : BookCheckout := ⟨[byteOf 0xFE], [], [], false⟩

/-- A block carrying `payloadFF` whose hash has been set by `generateHash`. -/
def hashedBlockFF : Block := generateHash { Block.zero with Data := payloadFF }

/-- A block at position 55296 (the surrogate code point U+D800), every other
field zero. -/
def blockAtD800 : Block := { Block.zero with Pos := 55296 }

/-- A block at position 55297 (the surrogate code point U+D801), every other
field zero. -/
def blockAtD801 : Block := { Block.zero with Pos := 55297 }

/-- A block with position 1 and every other field zero. -/
def blockAtOne : Block := { Block.zero with Pos := 1 }

/-! ## Basic facts about the operations -/

theorem wrapInt_of_isInt {x : Int} (h : IsInt x) : wrapInt x = x := by
  unfold IsInt at h
  unfold wrapInt
  omega

theorem wrapInt_wrapInt_add (x y : Int) : wrapInt (wrapInt x + y) = wrapInt (x + y) := by
  unfold wrapInt
  omega

theorem intAdd_one_of_lt {x : Int} (h : IsInt x) (hlt : x < 9223372036854775807) :
    intAdd x 1 = x + 1 := by
  unfold IsInt at h
  unfold intAdd wrapInt
  omega

theorem generateHash_Hash (b : Block) : (generateHash b).Hash = recomputeHash b := rfl

theorem recomputeHash_generateHash (b : Block) :
    recomputeHash (generateHash b) = recomputeHash b := rfl

theorem generateHash_idem (b : Block) : generateHash (generateHash b) = generateHash b := rfl

theorem generateHash_eq_self {b : Block} (h : recomputeHash b = b.Hash) : generateHash b = b := by
  cases b
  simp only [generateHash] at *
  simp_all

theorem validateHash_fst (b : Block) (hash : GoString) :
    (validateHash b hash).1 = true ↔ recomputeHash b = hash := by
  unfold validateHash
  by_cases h : recomputeHash b = hash <;> simp [generateHash_Hash, h]

theorem validateHash_snd (b : Block) (hash : GoString) :
    (validateHash b hash).2 = generateHash b := by
  unfold validateHash
  by_cases h : recomputeHash b = hash <;> simp [generateHash_Hash, h]

theorem CreateBlock_eq (now : GoString) (p : Block) (d : BookCheckout) :
    CreateBlock now p d
      = generateHash ⟨intAdd p.Pos 1, BookCheckout.zero, now, [], p.Hash⟩ := rfl

theorem recomputeHash_CreateBlock (now : GoString) (p : Block) (d : BookCheckout) :
    recomputeHash (CreateBlock now p d) = (CreateBlock now p d).Hash := rfl

theorem validBlock_fst (c p : Block) :
    (validBlock c p).1 = true
      ↔ p.Hash = c.PrevHash ∧ recomputeHash c = c.Hash ∧ intAdd p.Pos 1 = c.Pos := by
  unfold validBlock
  by_cases h1 : p.Hash = c.PrevHash
  · by_cases h2 : recomputeHash c = c.Hash
    · have hv : (validateHash c c.Hash).1 = true := (validateHash_fst c c.Hash).2 h2
      have hs : (validateHash c c.Hash).2.Pos = c.Pos := by rw [validateHash_snd]; rfl
      by_cases h3 : intAdd p.Pos 1 = c.Pos <;> simp [h1, h2, h3, hv, hs]
    · have hv : (validateHash c c.Hash).1 = false := by
        cases hc : (validateHash c c.Hash).1
        · rfl
        · exact absurd ((validateHash_fst c c.Hash).1 hc) h2
      simp [h1, h2, hv]
  · simp [h1]

theorem validBlock_CreateBlock (now : GoString) (p : Block) (d : BookCheckout) :
    validBlock (CreateBlock now p d) p = (true, CreateBlock now p d) := by
  have h1 : (validBlock (CreateBlock now p d) p).1 = true :=
    (validBlock_fst _ _).2 ⟨rfl, recomputeHash_CreateBlock now p d, rfl⟩
  have h2 : (validBlock (CreateBlock now p d) p).2 = CreateBlock now p d := by
    unfold validBlock
    have hv : (validateHash (CreateBlock now p d) (CreateBlock now p d).Hash).2
        = CreateBlock now p d := by
      rw [validateHash_snd]; rfl
    have hp : (CreateBlock now p d).PrevHash = p.Hash := rfl
    split
    · rfl
    · simp only [hv]
      split
      · rfl
      · split <;> rfl
  exact Prod.ext h1 h2

theorem getElem?_length_sub_one (l : List Block) (h : l ≠ []) :
    l[l.length - 1]? = some (l.getLast h) := by
  rw [List.getLast_eq_getElem]
  exact List.getElem?_eq_getElem _

theorem AddBlock_of_ne_nil (now : GoString) (d : BookCheckout) (bc : Blockchain)
    (h : bc.blocks ≠ []) :
    AddBlock now d bc = some ⟨bc.blocks ++ [CreateBlock now (bc.blocks.getLast h) d]⟩ := by
  unfold AddBlock
  rw [getElem?_length_sub_one bc.blocks h]
  simp [validBlock_CreateBlock]

theorem AddBlock_nil (now : GoString) (d : BookCheckout) : AddBlock now d ⟨[]⟩ = none := rfl

theorem Reachable.ne_nil {bc : Blockchain} (h : Reachable bc) : bc.blocks ≠ [] := by
  induction h with
  | init now => simp [NewBlockchain]
  | add now data _ hadd ih =>
    rw [AddBlock_of_ne_nil now data _ ih] at hadd
    cases hadd
    simp

theorem CreateBlock_Data (now : GoString) (p : Block) (d : BookCheckout) :
    (CreateBlock now p d).Data = BookCheckout.zero := rfl

theorem CreateBlock_Pos (now : GoString) (p : Block) (d : BookCheckout) :
    (CreateBlock now p d).Pos = intAdd p.Pos 1 := rfl

theorem CreateBlock_PrevHash (now : GoString) (p : Block) (d : BookCheckout) :
    (CreateBlock now p d).PrevHash = p.Hash := rfl

theorem CreateBlock_TimeStamp (now : GoString) (p : Block) (d : BookCheckout) :
    (CreateBlock now p d).TimeStamp = now := rfl

/-- Positions along a reachable chain: the block at index `i` has position
`i + 1`, reduced to the range of an `int`. -/
theorem Reachable.pos_eq {bc : Blockchain} (h : Reachable bc) :
    ∀ (i : Nat) (b : Block), bc.blocks[i]? = some b → b.Pos = wrapInt (i + 1) := by
  induction h with
  | init now =>
    intro i b hb
    cases i with
    | zero =>
      simp only [NewBlockchain, List.getElem?_cons_zero, Option.some.injEq] at hb
      subst hb
      rfl
    | succ n => simp [NewBlockchain] at hb
  | add now data hr hadd ih =>
    rename_i bc0 bc2
    have h0 := hr.ne_nil
    rw [AddBlock_of_ne_nil now data bc0 h0] at hadd
    cases hadd
    intro i b hb
    by_cases hi : i < bc0.blocks.length
    · rw [List.getElem?_append_left hi] at hb
      exact ih i b hb
    · have hge : bc0.blocks.length ≤ i := Nat.le_of_not_lt hi
      rw [List.getElem?_append_right hge] at hb
      have hlen : 0 < bc0.blocks.length := List.length_pos.2 h0
      cases hk : i - bc0.blocks.length with
      | zero =>
        rw [hk] at hb
        simp only [List.getElem?_cons_zero, Option.some.injEq] at hb
        subst hb
        have hlast := ih (bc0.blocks.length - 1) _ (getElem?_length_sub_one bc0.blocks h0)
        rw [CreateBlock_Pos, hlast, intAdd, wrapInt_wrapInt_add]
        have : i = bc0.blocks.length := by omega
        subst this
        congr 1
        omega
      | succ n =>
        rw [hk] at hb
        simp at hb

/-- Linkage along a reachable chain. -/
theorem Reachable.link {bc : Blockchain} (h : Reachable bc) :
    ∀ (i : Nat) (a b : Block), bc.blocks[i]? = some a → bc.blocks[i + 1]? = some b →
      b.PrevHash = a.Hash ∧ b.Pos = intAdd a.Pos 1 := by
  induction h with
  | init now =>
    intro i a b _ hb
    simp [NewBlockchain] at hb
  | add now data hr hadd ih =>
    rename_i bc0 bc2
    have h0 := hr.ne_nil
    rw [AddBlock_of_ne_nil now data bc0 h0] at hadd
    cases hadd
    intro i a b ha hb
    have hlen : 0 < bc0.blocks.length := List.length_pos.2 h0
    by_cases hi : i + 1 < bc0.blocks.length
    · rw [List.getElem?_append_left hi] at hb
      rw [List.getElem?_append_left (by omega)] at ha
      exact ih i a b ha hb
    · have hge : bc0.blocks.length ≤ i + 1 := Nat.le_of_not_lt hi
      rw [List.getElem?_append_right hge] at hb
      cases hk : i + 1 - bc0.blocks.length with
      | zero =>
        rw [hk] at hb
        simp only [List.getElem?_cons_zero, Option.some.injEq] at hb
        subst hb
        have hi2 : i = bc0.blocks.length - 1 := by omega
        subst hi2
        rw [List.getElem?_append_left (by omega), getElem?_length_sub_one bc0.blocks h0] at ha
        cases ha
        exact ⟨rfl, rfl⟩
      | succ n =>
        rw [hk] at hb
        simp at hb

/-- Every block of a reachable chain stores the hash of its own fields. -/
theorem Reachable.hash_ok {bc : Blockchain} (h : Reachable bc) :
    ∀ b ∈ bc.blocks, recomputeHash b = b.Hash := by
  induction h with
  | init now =>
    intro b hb
    simp only [NewBlockchain, List.mem_singleton] at hb
    subst hb
    rfl
  | add now data hr hadd ih =>
    rename_i bc0 bc2
    have h0 := hr.ne_nil
    rw [AddBlock_of_ne_nil now data bc0 h0] at hadd
    cases hadd
    intro b hb
    simp only [List.mem_append, List.mem_singleton] at hb
    rcases hb with hb | hb
    · exact ih b hb
    · subst hb
      rfl

theorem runCalls_snoc (now0 : GoString) (calls : List (GoString × BookCheckout))
    (c : GoString × BookCheckout) :
    runCalls now0 (calls ++ [c]) = (runCalls now0 calls).bind (AddBlock c.1 c.2) := by
  simp [runCalls, List.foldl_append]

/-- The chains of `Reachable` are exactly the results of `runCalls`. -/
theorem Reachable_iff_runCalls (bc : Blockchain) :
    Reachable bc ↔ ∃ now0 calls, runCalls now0 calls = some bc := by
  constructor
  · intro h
    induction h with
    | init now => exact ⟨now, [], rfl⟩
    | add now data _ hadd ih =>
      obtain ⟨now0, calls, hrun⟩ := ih
      refine ⟨now0, calls ++ [(now, data)], ?_⟩
      rw [runCalls_snoc, hrun]
      exact hadd
  · rintro ⟨now0, calls, hrun⟩
    induction calls using List.reverseRecOn generalizing bc with
    | nil =>
      cases hrun
      exact Reachable.init now0
    | append_singleton calls c ih =>
      rw [runCalls_snoc] at hrun
      cases hprev : runCalls now0 calls with
      | none => simp [hprev] at hrun
      | some bc0 =>
        rw [hprev] at hrun
        exact Reachable.add c.1 c.2 (ih bc0 hprev) hrun

theorem sampleChain_reachable : Reachable sampleChain :=
  Reachable.add sampleTime1 sampleCheckout (Reachable.init sampleTime0)
    (AddBlock_of_ne_nil sampleTime1 sampleCheckout (NewBlockchain sampleTime0)
      (List.cons_ne_nil _ _))

theorem isInt_succ_of_lt_length {n i : Nat} (hi : i < n) (hn : (n : Int) ≤ maxInt) :
    IsInt ((i : Int) + 1) := by
  unfold maxInt at hn
  unfold IsInt
  omega

/-! ## The string encoder is injective on well-formed UTF-8 -/

theorem byteOf_val (n : Nat) : (byteOf n).val = n % 256 := rfl

theorem byteOf_self (b : Byte) : byteOf b.val = b := by
  apply Fin.ext
  simp [byteOf_val, Nat.mod_eq_of_lt b.isLt]

theorem hexDigit_val {n : Nat} (h : n < 16) :
    (hexDigit n).val = if n < 10 then 48 + n else 87 + n := by
  unfold hexDigit
  split <;> rw [byteOf_val] <;> omega

theorem unhex_hexDigit {n : Nat} (h : n < 16) : unhex (hexDigit n) = n := by
  unfold unhex
  rw [hexDigit_val h]
  split <;> split <;> omega

theorem hexDigit_inj {m n : Nat} (hm : m < 16) (hn : n < 16) (h : hexDigit m = hexDigit n) :
    m = n := by
  rw [← unhex_hexDigit hm, ← unhex_hexDigit hn, h]

theorem hexEncode_cons (b : Byte) (bs : List Byte) :
    hexEncode (b :: bs) = hexDigit (b.val / 16) :: hexDigit (b.val % 16) :: hexEncode bs := rfl

theorem hexEncode_injective : Function.Injective hexEncode := by
  intro xs
  induction xs with
  | nil =>
    intro ys h
    cases ys with
    | nil => rfl
    | cons y ys => simp [hexEncode_cons, hexEncode] at h
  | cons x xs ih =>
    intro ys h
    cases ys with
    | nil => simp [hexEncode_cons, hexEncode] at h
    | cons y ys =>
      rw [hexEncode_cons, hexEncode_cons] at h
      injection h with h1 h
      injection h with h2 h
      have hx := x.isLt
      have hy := y.isLt
      have e1 := hexDigit_inj (by omega) (by omega) h1
      have e2 := hexDigit_inj (by omega) (by omega) h2
      have : x = y := Fin.ext (by omega)
      rw [this, ih h]

theorem unescape_quote (rest : List Byte) : unescape (byteOf 0x22 :: rest) = some ([], rest) := by
  rw [unescape.eq_def]
  simp [byteOf_val]

theorem unescape_other (c : Byte) (rest : List Byte) (h1 : c.val ≠ 0x22) (h2 : c.val ≠ 0x5C) :
    unescape (c :: rest) = (unescape rest).map (fun r => (c :: r.1, r.2)) := by
  rw [unescape.eq_def]
  simp [h1, h2]

theorem unescape_letter (e : Byte) (rest : List Byte) (he : e.val ≠ 0x75) :
    unescape (byteOf 0x5C :: e :: rest)
      = (unescape rest).map (fun r => (unescapeLetter e :: r.1, r.2)) := by
  rw [unescape.eq_def]
  simp [byteOf_val, he]

theorem unescape_u (h1 h2 h3 h4 : Byte) (rest : List Byte) :
    unescape (byteOf 0x5C :: byteOf 0x75 :: h1 :: h2 :: h3 :: h4 :: rest)
      = if h1.val = 0x30 then
          (unescape rest).map (fun r => (byteOf (unhex h3 * 16 + unhex h4) :: r.1, r.2))
        else
          (unescape rest).map
            (fun r => (byteOf 0xE2 :: byteOf 0x80 :: byteOf (0xA0 + unhex h4) :: r.1, r.2)) := by
  rw [unescape.eq_def]
  simp [byteOf_val]

theorem unescape_copy (pre Z : List Byte) (h : ∀ c ∈ pre, 0x80 ≤ c.val) :
    unescape (pre ++ Z) = (unescape Z).map (fun r => (pre ++ r.1, r.2)) := by
  induction pre with
  | nil => simp
  | cons c pre ih =>
    have hc : 0x80 ≤ c.val := h c (List.mem_cons_self _ _)
    have ih2 := ih (fun x hx => h x (List.mem_cons_of_mem _ hx))
    rw [List.cons_append, unescape_other c _ (by omega) (by omega), ih2]
    cases unescape Z <;> simp

theorem leadInfo_cases (n : Nat) :
    leadInfo n = none
    ∨ ∃ sz lo hi, leadInfo n = some (sz, lo, hi) ∧ 0x80 ≤ lo ∧ hi ≤ 0xBF
        ∧ ((sz = 2 ∧ 0xC2 ≤ n ∧ n < 0xE0) ∨ (sz = 3 ∧ 0xE0 ≤ n ∧ n ≤ 0xEF)
            ∨ (sz = 4 ∧ 0xF0 ≤ n ∧ n ≤ 0xF4 ∧ (n = 0xF0 → 0x90 ≤ lo))) := by
  unfold leadInfo
  split_ifs with h1 h2 h3 h4 h5 h6 h7 h8
  · exact Or.inl rfl
  · exact Or.inr ⟨2, 0x80, 0xBF, rfl, by omega, by omega, Or.inl ⟨rfl, by omega, by omega⟩⟩
  · exact Or.inr ⟨3, 0xA0, 0xBF, rfl, by omega, by omega,
      Or.inr (Or.inl ⟨rfl, by omega, by omega⟩)⟩
  · exact Or.inr ⟨3, 0x80, 0x9F, rfl, by omega, by omega,
      Or.inr (Or.inl ⟨rfl, by omega, by omega⟩)⟩
  · exact Or.inr ⟨3, 0x80, 0xBF, rfl, by omega, by omega,
      Or.inr (Or.inl ⟨rfl, by omega, by omega⟩)⟩
  · exact Or.inr ⟨4, 0x90, 0xBF, rfl, by omega, by omega,
      Or.inr (Or.inr ⟨rfl, by omega, by omega, fun _ => by omega⟩)⟩
  · exact Or.inr ⟨4, 0x80, 0xBF, rfl, by omega, by omega,
      Or.inr (Or.inr ⟨rfl, by omega, by omega, fun h => by omega⟩)⟩
  · exact Or.inr ⟨4, 0x80, 0x8F, rfl, by omega, by omega,
      Or.inr (Or.inr ⟨rfl, by omega, by omega, fun h => by omega⟩)⟩
  · exact Or.inl rfl

theorem decodeRune_multi (b : Byte) (rest : List Byte) (hb : 0x80 ≤ b.val) :
    decodeRune (b :: rest) = (runeError, 1)
    ∨ (∃ s1 r, rest = s1 :: r ∧ 0x80 ≤ s1.val ∧ (decodeRune (b :: rest)).2 = 2
        ∧ (decodeRune (b :: rest)).1 < 0x800)
    ∨ (∃ s1 s2 r, rest = s1 :: s2 :: r ∧ 0x80 ≤ s1.val ∧ s1.val ≤ 0xBF ∧ 0x80 ≤ s2.val
        ∧ s2.val ≤ 0xBF ∧ 0xE0 ≤ b.val ∧ b.val ≤ 0xEF
        ∧ decodeRune (b :: rest) = (b.val % 16 * 4096 + s1.val % 64 * 64 + s2.val % 64, 3))
    ∨ (∃ s1 s2 s3 r, rest = s1 :: s2 :: s3 :: r ∧ 0x80 ≤ s1.val ∧ 0x80 ≤ s2.val ∧ 0x80 ≤ s3.val
        ∧ (decodeRune (b :: rest)).2 = 4 ∧ 0x10000 ≤ (decodeRune (b :: rest)).1) := by
  have hnot : ¬ b.val < 0x80 := by omega
  rcases leadInfo_cases b.val with h | ⟨sz, lo, hi, h, hlo, hhi, hsz⟩
  · left
    simp only [decodeRune, hnot, if_false, h]
  · rcases rest with _ | ⟨s1, rest1⟩
    · left
      simp only [decodeRune, hnot, if_false, h]
    · by_cases hr1 : s1.val < lo ∨ hi < s1.val
      · left
        simp only [decodeRune, hnot, if_false, h, hr1, if_true]
      · have hs1 : lo ≤ s1.val ∧ s1.val ≤ hi := by omega
        rcases hsz with ⟨rfl, h2a, h2b⟩ | hsz
        · right; left
          refine ⟨s1, rest1, rfl, by omega, ?_, ?_⟩
          · simp only [decodeRune, hnot, if_false, h, hr1]
            simp
          · simp only [decodeRune, hnot, if_false, h, hr1]
            simp
            omega
        · rcases rest1 with _ | ⟨s2, rest2⟩
          · left
            rcases hsz with ⟨rfl, _, _⟩ | ⟨rfl, _, _, _⟩ <;>
              simp [decodeRune, hnot, h, hr1]
          · by_cases hc2 : isCont s2 = true
            · have hs2 : 0x80 ≤ s2.val ∧ s2.val ≤ 0xBF := by
                simpa [isCont] using hc2
              rcases hsz with ⟨rfl, h3a, h3b⟩ | ⟨rfl, h4a, h4b, h4c⟩
              · right; right; left
                refine ⟨s1, s2, rest2, rfl, by omega, by omega, hs2.1, hs2.2, h3a, h3b, ?_⟩
                simp [decodeRune, hnot, h, hr1, hc2]
              · rcases rest2 with _ | ⟨s3, rest3⟩
                · left
                  simp [decodeRune, hnot, h, hr1, hc2]
                · by_cases hc3 : isCont s3 = true
                  · have hs3 : 0x80 ≤ s3.val ∧ s3.val ≤ 0xBF := by
                      simpa [isCont] using hc3
                    right; right; right
                    refine ⟨s1, s2, s3, rest3, rfl, by omega, hs2.1, hs3.1, ?_, ?_⟩
                    · simp [decodeRune, hnot, h, hr1, hc2, hc3]
                    · simp [decodeRune, hnot, h, hr1, hc2, hc3]
                      omega
                  · left
                    simp [decodeRune, hnot, h, hr1, hc2, hc3]
            · left
              rcases hsz with ⟨rfl, _, _⟩ | ⟨rfl, _, _, _⟩ <;>
                simp [decodeRune, hnot, h, hr1, hc2]

theorem unescape_letter_case (b e : Byte) (Z : List Byte) (he : e.val ≠ 0x75)
    (hl : unescapeLetter e = b) :
    unescape ([byteOf 0x5C, e] ++ Z) = (unescape Z).map (fun r => (b :: r.1, r.2)) := by
  rw [List.cons_append, List.cons_append, List.nil_append, unescape_letter e Z he, hl]

theorem eq_of_val_eq_byteOf (b : Byte) (n : Nat) (hn : n < 256) (h : b.val = n) :
    byteOf n = b := by
  apply Fin.ext
  rw [byteOf_val, h, Nat.mod_eq_of_lt hn]

theorem unescape_escapeAscii (b : Byte) (Z : List Byte) (hb : b.val < 0x80) :
    unescape (escapeAscii b ++ Z) = (unescape Z).map (fun r => (b :: r.1, r.2)) := by
  unfold escapeAscii
  split_ifs with h1 h2 h3 h4 h5 h6
  · refine unescape_letter_case b b Z (by omega) ?_
    unfold unescapeLetter
    rcases h1 with h1 | h1 <;> simp [h1]
  · exact unescape_letter_case b (byteOf 0x62) Z (by decide)
      ((show unescapeLetter (byteOf 0x62) = byteOf 0x08 by decide).trans
        (eq_of_val_eq_byteOf b _ (by decide) h2))
  · exact unescape_letter_case b (byteOf 0x66) Z (by decide)
      ((show unescapeLetter (byteOf 0x66) = byteOf 0x0C by decide).trans
        (eq_of_val_eq_byteOf b _ (by decide) h3))
  · exact unescape_letter_case b (byteOf 0x6E) Z (by decide)
      ((show unescapeLetter (byteOf 0x6E) = byteOf 0x0A by decide).trans
        (eq_of_val_eq_byteOf b _ (by decide) h4))
  · exact unescape_letter_case b (byteOf 0x72) Z (by decide)
      ((show unescapeLetter (byteOf 0x72) = byteOf 0x0D by decide).trans
        (eq_of_val_eq_byteOf b _ (by decide) h5))
  · exact unescape_letter_case b (byteOf 0x74) Z (by decide)
      ((show unescapeLetter (byteOf 0x74) = byteOf 0x09 by decide).trans
        (eq_of_val_eq_byteOf b _ (by decide) h6))
  · simp only [List.cons_append, List.nil_append]
    rw [unescape_u]
    have h0 : (byteOf 0x30).val = 0x30 := rfl
    have hd1 : b.val / 16 < 16 := by omega
    have hd2 : b.val % 16 < 16 := by omega
    simp only [h0, if_true, unhex_hexDigit hd1, unhex_hexDigit hd2]
    have : b.val / 16 * 16 + b.val % 16 = b.val := by omega
    rw [this, byteOf_self]

theorem length_drop_le_of_le {n : Nat} (k : Nat) (l : List Byte) (h : l.length ≤ n) :
    (l.drop k).length ≤ n := by
  rw [List.length_drop]
  omega

theorem unescape_copied (b : Byte) (rest X out : List Byte) (k : Nat) (hk : 1 ≤ k)
    (hall : ∀ c ∈ (b :: rest).take k, 0x80 ≤ c.val)
    (ihr : unescape (out ++ byteOf 0x22 :: X) = some (rest.drop (k - 1), X)) :
    unescape (((b :: rest).take k ++ out) ++ byteOf 0x22 :: X) = some (b :: rest, X) := by
  rw [List.append_assoc, unescape_copy _ _ hall, ihr]
  obtain ⟨j, rfl⟩ : ∃ j, k = j + 1 := ⟨k - 1, by omega⟩
  simp

theorem unescape_appendStringLoop (fuel : Nat) :
    ∀ (s X : List Byte), s.length ≤ fuel → validUTF8Loop fuel s = true →
      unescape (appendStringLoop fuel s ++ byteOf 0x22 :: X) = some (s, X) := by
  induction fuel with
  | zero =>
    intro s X hlen _
    have hs : s = [] := List.length_eq_zero.1 (by omega)
    subst hs
    simp [appendStringLoop, unescape_quote]
  | succ n ih =>
    intro s X hlen hv
    cases s with
    | nil => simp [appendStringLoop, unescape_quote]
    | cons b rest =>
      have hrest : rest.length ≤ n := by
        simp only [List.length_cons] at hlen
        omega
      by_cases hb : b.val < 0x80
      · have hdec : decodeRune (b :: rest) = (b.val, 1) := by simp [decodeRune, hb]
        have hne : ¬ (b.val = runeError ∧ 1 = 1) := by
          unfold runeError
          omega
        have hv2 : validUTF8Loop n rest = true := by
          have hv1 := hv
          simp [validUTF8Loop, hdec] at hv1
          exact hv1.2
        have ihr := ih rest X hrest hv2
        by_cases hs : htmlSafe b = true
        · have hq : b.val ≠ 0x22 ∧ b.val ≠ 0x5C := by
            simp [htmlSafe] at hs
            omega
          simp only [appendStringLoop, hb, if_true, hs, List.cons_append, List.nil_append]
          rw [unescape_other b _ hq.1 hq.2, ihr]
          rfl
        · have hs2 : htmlSafe b = false := by simpa using hs
          simp only [appendStringLoop, hb, if_true, hs2, Bool.false_eq_true, if_false,
            List.append_assoc]
          rw [unescape_escapeAscii b _ hb, ihr]
          rfl
      · have hb2 : 0x80 ≤ b.val := by omega
        have hv1 := hv
        simp only [validUTF8Loop] at hv1
        by_cases hok : (decodeRune (b :: rest)).1 = runeError ∧ (decodeRune (b :: rest)).2 = 1
        · simp [hok] at hv1
        · simp only [hok, if_false] at hv1
          have ihr := ih (rest.drop ((decodeRune (b :: rest)).2 - 1)) X
            (length_drop_le_of_le _ _ hrest) hv1
          rcases decodeRune_multi b rest hb2 with hbad | ⟨s1, r, hr, hs1, hsz, hlt⟩
            | ⟨s1, s2, r, hr, hs1, hs1b, hs2, hs2b, hb3, hb3b, hdec⟩
            | ⟨s1, s2, s3, r, hr, hs1, hs2, hs3, hsz, hge⟩
          · exact absurd (by rw [hbad]; exact ⟨rfl, rfl⟩) hok
          · have hsep : ¬ ((decodeRune (b :: rest)).1 = 0x2028
                ∨ (decodeRune (b :: rest)).1 = 0x2029) := by omega
            simp only [appendStringLoop, hb, if_false, hok, hsep]
            refine unescape_copied b rest X _ _ (by omega) ?_ ihr
            subst hr
            rw [hsz]
            intro c hc
            simp at hc
            rcases hc with rfl | rfl <;> assumption
          · subst hr
            rw [hdec] at ihr hok
            have h31 : ¬ ((3 : Nat) = 1) := by decide
            by_cases hsep : (b.val % 16 * 4096 + s1.val % 64 * 64 + s2.val % 64 = 0x2028
                ∨ b.val % 16 * 4096 + s1.val % 64 * 64 + s2.val % 64 = 0x2029)
            · have e0 : byteOf 0xE2 = b := eq_of_val_eq_byteOf b _ (by decide) (by omega)
              have e1 : byteOf 0x80 = s1 := eq_of_val_eq_byteOf s1 _ (by decide) (by omega)
              have hd : (b.val % 16 * 4096 + s1.val % 64 * 64 + s2.val % 64) % 16 < 16 := by
                omega
              have e2 : byteOf (0xA0 + (b.val % 16 * 4096 + s1.val % 64 * 64 + s2.val % 64) % 16)
                  = s2 := eq_of_val_eq_byteOf s2 _ (by omega) (by omega)
              simp only [appendStringLoop, hb, if_false, hdec, h31, and_false, hsep, if_true,
                List.cons_append, List.nil_append]
              rw [unescape_u]
              have h32 : ¬ ((byteOf 0x32).val = 0x30) := by decide
              simp only [h32, if_false, unhex_hexDigit hd]
              simp only [Nat.add_one_sub_one, Nat.reduceAdd, Nat.reduceSub] at ihr
              rw [ihr, e0, e1, e2]
              rfl
            · simp only [appendStringLoop, hb, if_false, hdec, h31, and_false, hsep]
              refine unescape_copied b (s1 :: s2 :: r) X _ _ (by omega) ?_ ihr
              intro c hc
              simp at hc
              rcases hc with rfl | rfl | rfl <;> omega
          · have hsep : ¬ ((decodeRune (b :: rest)).1 = 0x2028
                ∨ (decodeRune (b :: rest)).1 = 0x2029) := by omega
            simp only [appendStringLoop, hb, if_false, hok, hsep]
            refine unescape_copied b rest X _ _ (by omega) ?_ ihr
            subst hr
            rw [hsz]
            intro c hc
            simp at hc
            rcases hc with rfl | rfl | rfl | rfl <;> assumption

theorem jsonString_append_inj {s t X Y : List Byte} (hs : validUTF8 s = true)
    (ht : validUTF8 t = true) (h : jsonString s ++ X = jsonString t ++ Y) : s = t ∧ X = Y := by
  unfold jsonString at h
  simp only [List.cons_append, List.append_assoc, List.nil_append] at h
  have h2 := List.tail_eq_of_cons_eq h
  have e1 := unescape_appendStringLoop s.length s X (Nat.le_refl _) hs
  have e2 := unescape_appendStringLoop t.length t Y (Nat.le_refl _) ht
  rw [h2, e2] at e1
  have e3 := Option.some.inj e1
  exact ⟨(congrArg Prod.fst e3).symm, (congrArg Prod.snd e3).symm⟩

theorem jsonBool_append_inj {a b : Bool} {X : List Byte}
    (h : jsonBool a ++ X = jsonBool b ++ X) : a = b := by
  cases a <;> cases b <;> first | rfl | (exfalso; revert h; simp [jsonBool])

theorem jsonMarshal_inj {d e : BookCheckout} (hd : ValidPayload d) (he : ValidPayload e)
    (h : jsonMarshal d = jsonMarshal e) : d = e := by
  unfold jsonMarshal at h
  simp only [List.append_assoc] at h
  obtain ⟨h1, h⟩ := jsonString_append_inj hd.1 he.1 (List.append_cancel_left h)
  obtain ⟨h2, h⟩ := jsonString_append_inj hd.2.1 he.2.1 (List.append_cancel_left h)
  obtain ⟨h3, h⟩ := jsonString_append_inj hd.2.2 he.2.2 (List.append_cancel_left h)
  have h4 := jsonBool_append_inj (List.append_cancel_left h)
  cases d
  cases e
  simp only at h1 h2 h3 h4
  simp [h1, h2, h3, h4]

theorem hashInput_setData (b : Block) (d : BookCheckout) :
    hashInput { b with Data := d }
      = intToString b.Pos ++ b.TimeStamp ++ jsonMarshal d ++ b.PrevHash := rfl

theorem hashInput_setData_eq_iff (b : Block) (d : BookCheckout) :
    hashInput { b with Data := d } = hashInput b ↔ jsonMarshal d = jsonMarshal b.Data := by
  rw [hashInput_setData]
  unfold hashInput
  constructor
  · intro h
    exact List.append_cancel_left (List.append_cancel_right h)
  · intro h
    rw [h]

/-! ## `validBlock` -/

/-- C1. `validBlock(c, p)` returns true exactly when `p.Hash == c.PrevHash`, the
hash recomputed from the fields of `c` equals the hash stored in `c` before the
call, and `p.Pos + 1 == c.Pos`, the sum being that of two `int`s (it is the
integer `p.Pos + 1` unless `p.Pos` is the largest `int`); a candidate whose
`PrevHash` differs from `p.Hash` is rejected. -/
theorem validBlock_iff (c p : Block) :
    ((validBlock c p).1 = true
      ↔ p.Hash = c.PrevHash ∧ recomputeHash c = c.Hash ∧ intAdd p.Pos 1 = c.Pos)
    ∧ (IsInt p.Pos → p.Pos < maxInt →
        ((validBlock c p).1 = true
          ↔ p.Hash = c.PrevHash ∧ recomputeHash c = c.Hash ∧ p.Pos + 1 = c.Pos))
    ∧ (p.Hash ≠ c.PrevHash → (validBlock c p).1 = false) := by
  refine ⟨validBlock_fst c p, fun hp hlt => ?_, fun hne => ?_⟩
  · rw [validBlock_fst, intAdd_one_of_lt hp hlt]
  · cases hv : (validBlock c p).1
    · rfl
    · exact absurd ((validBlock_fst c p).1 hv).1 hne

/-- Instance of C1: a block whose `PrevHash` is not the hash of the genesis
block is rejected as its successor. -/
theorem validBlock_iff_witness :
    (validBlock blockAtOne (GenesisBlock sampleTime0)).1 = false :=
  (validBlock_iff blockAtOne (GenesisBlock sampleTime0)).2.2 (by decide)

/-! ## `CreateBlock` and `GenesisBlock` -/

/-- C2, evaluated on the genesis construction: `CreateBlock` leaves `Data` at its
zero value whatever payload it is given, so the genesis block has
`IsGenesis = false`, a block built for `sampleCheckout` does not carry it, and
the hash is computed over the serialization of the zero payload. -/
theorem CreateBlock_drops_payload :
    (GenesisBlock sampleTime0).Data.IsGenesis = false
    ∧ (CreateBlock sampleTime1 (GenesisBlock sampleTime0) sampleCheckout).Data ≠ sampleCheckout
    ∧ (CreateBlock sampleTime1 (GenesisBlock sampleTime0) sampleCheckout).Hash
        = hexEncode (sha256 (intToString 2 ++ sampleTime1 ++ jsonMarshal BookCheckout.zero
            ++ (GenesisBlock sampleTime0).Hash)) := by
  refine ⟨rfl, ?_, ?_⟩
  · rw [CreateBlock_Data]
    decide
  · have hpos : intAdd (GenesisBlock sampleTime0).Pos 1 = 2 := by decide
    rw [CreateBlock_eq, generateHash_Hash]
    unfold recomputeHash hashInput
    simp only [hpos]

/-- C3, evaluated on a block at position 1: the hash that `generateHash` stores
is not the SHA-256 of the input that starts with the decimal string `1`; the
input it hashes starts with the byte `0x01`. -/
theorem generateHash_not_decimal :
    (generateHash blockAtOne).Hash ≠ specHash blockAtOne
    ∧ hashInput blockAtOne = byteOf 0x01 :: jsonMarshal BookCheckout.zero
    ∧ specHashInput blockAtOne = byteOf 0x31 :: jsonMarshal BookCheckout.zero := by
  refine ⟨?_, ?_, ?_⟩
  · set_option maxRecDepth 100000 in decide
  · decide
  · decide

/-- C8. The block returned by `CreateBlock` stores the hash recomputed from its
own fields, and `validateHash` called on it with its stored hash returns true. -/
theorem CreateBlock_self_validating (now : GoString) (p : Block) (d : BookCheckout) :
    recomputeHash (CreateBlock now p d) = (CreateBlock now p d).Hash
    ∧ (validateHash (CreateBlock now p d) (CreateBlock now p d).Hash).1 = true :=
  ⟨recomputeHash_CreateBlock now p d,
    (validateHash_fst _ _).2 (recomputeHash_CreateBlock now p d)⟩

/-- C9. The block returned by `CreateBlock(p, d)` has `Pos == p.Pos + 1` as a sum
of `int`s (the integer `p.Pos + 1` unless `p.Pos` is the largest `int`),
`PrevHash == p.Hash`, and the clock value as its `TimeStamp`. -/
theorem CreateBlock_fields (now : GoString) (p : Block) (d : BookCheckout) :
    (CreateBlock now p d).Pos = intAdd p.Pos 1
    ∧ (IsInt p.Pos → p.Pos < maxInt → (CreateBlock now p d).Pos = p.Pos + 1)
    ∧ (CreateBlock now p d).PrevHash = p.Hash
    ∧ (CreateBlock now p d).TimeStamp = now :=
  ⟨rfl, fun hp hlt => (CreateBlock_Pos now p d).trans (intAdd_one_of_lt hp hlt), rfl, rfl⟩

/-- Instance of C9: the block built on the genesis block has position 2. -/
theorem CreateBlock_fields_witness :
    (CreateBlock sampleTime1 (GenesisBlock sampleTime0) sampleCheckout).Pos
      = (GenesisBlock sampleTime0).Pos + 1 :=
  (CreateBlock_fields sampleTime1 (GenesisBlock sampleTime0) sampleCheckout).2.1
    (by decide) (by decide)

/-! ## Reachable chains -/

/-- C4, refuted on the sample chain: the genesis block has position 1 and the
first appended block has position 2, so the block at index `i` does not have
position `i`. -/
theorem position_ne_index :
    Reachable sampleChain
    ∧ sampleChain.blocks.map Block.Pos = [1, 2]
    ∧ ¬ (∀ (i : Nat) (b : Block), sampleChain.blocks[i]? = some b → b.Pos = i) := by
  refine ⟨sampleChain_reachable, by decide, fun h => ?_⟩
  have h0 := h 0 (GenesisBlock sampleTime0) rfl
  revert h0
  decide

/-- C4, amended. In every chain reachable from `NewBlockchain()` by `AddBlock`
calls, the block at index `i` has position `i + 1` (reduced to the range of an
`int`, which changes nothing as long as the length of the chain is an `int`):
the genesis block has position 1 and the first appended block has position 2. -/
theorem Reachable_position (bc : Blockchain) (h : Reachable bc) (i : Nat) (b : Block)
    (hb : bc.blocks[i]? = some b) :
    b.Pos = wrapInt (i + 1) ∧ ((bc.blocks.length : Int) ≤ maxInt → b.Pos = i + 1) := by
  have hpos := h.pos_eq i b hb
  refine ⟨hpos, fun hlen => ?_⟩
  have hi : i < bc.blocks.length := (List.getElem?_eq_some.1 hb).1
  rw [hpos]
  exact wrapInt_of_isInt (isInt_succ_of_lt_length hi hlen)

/-- Instance of the amended C4 on the sample chain, index 1. -/
theorem Reachable_position_witness :
    (CreateBlock sampleTime1 (GenesisBlock sampleTime0) sampleCheckout).Pos = 2 :=
  (Reachable_position sampleChain sampleChain_reachable 1 _ rfl).2 (by decide)

/-- C5. In every chain reachable from `NewBlockchain()` by `AddBlock` calls, each
block after the first has the hash of the block before it as `PrevHash`, and
its position is that of the block before it plus 1 (as a sum of `int`s, and as
integers as long as the length of the chain is an `int`). -/
theorem Reachable_linked (bc : Blockchain) (h : Reachable bc) (i : Nat) (a b : Block)
    (ha : bc.blocks[i]? = some a) (hb : bc.blocks[i + 1]? = some b) :
    b.PrevHash = a.Hash ∧ b.Pos = intAdd a.Pos 1
    ∧ ((bc.blocks.length : Int) ≤ maxInt → b.Pos = a.Pos + 1) := by
  obtain ⟨h1, h2⟩ := h.link i a b ha hb
  refine ⟨h1, h2, fun hlen => ?_⟩
  have hi : i + 1 < bc.blocks.length := (List.getElem?_eq_some.1 hb).1
  have hbp := h.pos_eq (i + 1) b hb
  have hap := h.pos_eq i a ha
  rw [wrapInt_of_isInt (isInt_succ_of_lt_length hi hlen)] at hbp
  rw [wrapInt_of_isInt (isInt_succ_of_lt_length (Nat.lt_of_succ_lt hi) hlen)] at hap
  rw [hbp, hap]
  push_cast
  ring

/-- Instance of C5 on the sample chain. -/
theorem Reachable_linked_witness :
    (CreateBlock sampleTime1 (GenesisBlock sampleTime0) sampleCheckout).PrevHash
        = (GenesisBlock sampleTime0).Hash
    ∧ (CreateBlock sampleTime1 (GenesisBlock sampleTime0) sampleCheckout).Pos
        = (GenesisBlock sampleTime0).Pos + 1 :=
  have w := Reachable_linked sampleChain sampleChain_reachable 0 _ _ rfl rfl
  ⟨w.1, w.2.2 (by decide)⟩

/-- C6. In every chain reachable from `NewBlockchain()` by `AddBlock` calls, the
hash recomputed from the `Pos`, `TimeStamp`, `Data` and `PrevHash` of the block
at any index equals the hash stored in that block. -/
theorem Reachable_hash_consistent (bc : Blockchain) (h : Reachable bc) (i : Nat) (b : Block)
    (hb : bc.blocks[i]? = some b) : recomputeHash b = b.Hash :=
  h.hash_ok b (List.getElem?_mem hb)

/-- Instance of C6 on the sample chain, index 1. -/
theorem Reachable_hash_consistent_witness :
    recomputeHash (CreateBlock sampleTime1 (GenesisBlock sampleTime0) sampleCheckout)
      = (CreateBlock sampleTime1 (GenesisBlock sampleTime0) sampleCheckout).Hash :=
  Reachable_hash_consistent sampleChain sampleChain_reachable 1 _ rfl

/-! ## `AddBlock` -/

/-- C7. On a non-empty chain `L`, `AddBlock(d)` returns a chain of length
`len(L) + 1` whose first `len(L)` blocks are those of `L`, in order, and whose
last block has `Pos = tail.Pos + 1` (as a sum of `int`s; the integer
`tail.Pos + 1` unless `tail.Pos` is the largest `int`) and
`PrevHash = tail.Hash`, where `tail` is the last block of `L`. -/
theorem AddBlock_appends (now : GoString) (d : BookCheckout) (L : Blockchain)
    (h : L.blocks ≠ []) :
    ∃ (L2 : Blockchain) (b : Block),
      AddBlock now d L = some L2
      ∧ L2.blocks.length = L.blocks.length + 1
      ∧ L2.blocks.take L.blocks.length = L.blocks
      ∧ L2.blocks[L.blocks.length]? = some b
      ∧ b.Pos = intAdd (L.blocks.getLast h).Pos 1
      ∧ (IsInt (L.blocks.getLast h).Pos → (L.blocks.getLast h).Pos < maxInt →
          b.Pos = (L.blocks.getLast h).Pos + 1)
      ∧ b.PrevHash = (L.blocks.getLast h).Hash := by
  refine ⟨⟨L.blocks ++ [CreateBlock now (L.blocks.getLast h) d]⟩,
    CreateBlock now (L.blocks.getLast h) d, AddBlock_of_ne_nil now d L h, ?_, ?_, ?_, rfl,
    fun hp hlt => (CreateBlock_Pos now _ d).trans (intAdd_one_of_lt hp hlt), rfl⟩
  · simp
  · simp
  · simp

/-- Instance of C7: `AddBlock` on the genesis chain succeeds. -/
theorem AddBlock_appends_witness :
    ∃ (L2 : Blockchain) (b : Block),
      AddBlock sampleTime1 sampleCheckout (NewBlockchain sampleTime0) = some L2
      ∧ L2.blocks.length = 2
      ∧ L2.blocks.take 1 = [GenesisBlock sampleTime0]
      ∧ L2.blocks[1]? = some b
      ∧ b.Pos = 2
      ∧ b.PrevHash = (GenesisBlock sampleTime0).Hash := by
  obtain ⟨L2, b, h1, h2, h3, h4, _, h6, h7⟩ :=
    AddBlock_appends sampleTime1 sampleCheckout (NewBlockchain sampleTime0)
      (List.cons_ne_nil _ _)
  exact ⟨L2, b, h1, h2, h3, h4, h6 (by decide) (by decide), h7⟩

/-! ## Tamper detection -/

/-- C10, refuted on `hashedBlockFF`: its hash was set by `generateHash`, the
payload `payloadFE` differs from its payload `payloadFF`, and yet after the
payload is replaced `validateHash` called with the original hash returns true,
because both payloads have the same serialization. -/
theorem tamper_undetected :
    hashedBlockFF.Hash = recomputeHash hashedBlockFF
    ∧ payloadFE ≠ hashedBlockFF.Data
    ∧ jsonMarshal payloadFE = jsonMarshal hashedBlockFF.Data
    ∧ (validateHash { hashedBlockFF with Data := payloadFE } hashedBlockFF.Hash).1 = true := by
  have hj : jsonMarshal payloadFE = jsonMarshal hashedBlockFF.Data := by decide
  refine ⟨(recomputeHash_generateHash _).symm, by decide, hj, ?_⟩
  rw [validateHash_fst]
  have hi : hashInput { hashedBlockFF with Data := payloadFE } = hashInput hashedBlockFF :=
    (hashInput_setData_eq_iff hashedBlockFF payloadFE).2 hj
  show hexEncode (sha256 (hashInput { hashedBlockFF with Data := payloadFE }))
    = hexEncode (sha256 (hashInput { Block.zero with Data := payloadFF }))
  rw [hi]
  rfl

/-- C10, amended. For a block `b` whose `Hash` was set by `generateHash` and a
payload `d` different from `b.Data`, the string fields of both being
well-formed UTF-8: replacing `b.Data` by `d` changes the string fed to SHA-256,
and `validateHash` called with the original hash returns true only if SHA-256
gives the two different strings the same digest. -/
theorem tamper_detected (b : Block) (d : BookCheckout) (hset : b.Hash = recomputeHash b)
    (hb : ValidPayload b.Data) (hd : ValidPayload d) (hne : d ≠ b.Data) :
    hashInput { b with Data := d } ≠ hashInput b
    ∧ ((validateHash { b with Data := d } b.Hash).1 = true
        ↔ sha256 (hashInput { b with Data := d }) = sha256 (hashInput b)) := by
  constructor
  · intro h
    exact hne (jsonMarshal_inj hd hb ((hashInput_setData_eq_iff b d).1 h))
  · rw [validateHash_fst, hset]
    unfold recomputeHash
    exact ⟨fun h => hexEncode_injective h, fun h => congrArg hexEncode h⟩

/-- Instance of the amended C10: the genesis block with its payload replaced by
`sampleCheckout` has another hash input, and `validateHash` rejects it. -/
theorem tamper_detected_witness :
    hashInput { GenesisBlock sampleTime0 with Data := sampleCheckout }
        ≠ hashInput (GenesisBlock sampleTime0)
    ∧ (validateHash { GenesisBlock sampleTime0 with Data := sampleCheckout }
        (GenesisBlock sampleTime0).Hash).1 = false := by
  have w := tamper_detected (GenesisBlock sampleTime0) sampleCheckout
    (recomputeHash_CreateBlock _ _ _).symm (by decide) (by decide) (by decide)
  refine ⟨w.1, ?_⟩
  set_option maxRecDepth 100000 in decide

/-! ## Timestamps, genesis and determinism -/

theorem hashInput_CreateBlock (now : GoString) (p : Block) (d : BookCheckout) :
    hashInput (CreateBlock now p d)
      = intToString (intAdd p.Pos 1) ++ now ++ jsonMarshal BookCheckout.zero ++ p.Hash := rfl

/-- C11. Two blocks constructed from the same predecessor and payload at two
different clock values are hashed from different strings, so their hashes are
equal only if SHA-256 gives these two different strings the same digest. -/
theorem CreateBlock_timestamp_matters (p : Block) (d : BookCheckout) (t1 t2 : GoString)
    (h : t1 ≠ t2) :
    hashInput (CreateBlock t1 p d) ≠ hashInput (CreateBlock t2 p d)
    ∧ ((CreateBlock t1 p d).Hash = (CreateBlock t2 p d).Hash
        ↔ sha256 (hashInput (CreateBlock t1 p d)) = sha256 (hashInput (CreateBlock t2 p d))) := by
  constructor
  · rw [hashInput_CreateBlock, hashInput_CreateBlock]
    intro heq
    exact h (List.append_cancel_left (List.append_cancel_right (List.append_cancel_right heq)))
  · rw [← recomputeHash_CreateBlock, ← recomputeHash_CreateBlock]
    unfold recomputeHash
    exact ⟨fun e => hexEncode_injective e, fun e => congrArg hexEncode e⟩

/-- Instance of C11: the blocks built on the genesis block for `sampleCheckout`
at the clock values `t0` and `t1` have different hash inputs and different
hashes. -/
theorem CreateBlock_timestamp_matters_witness :
    hashInput (CreateBlock sampleTime0 (GenesisBlock sampleTime0) sampleCheckout)
        ≠ hashInput (CreateBlock sampleTime1 (GenesisBlock sampleTime0) sampleCheckout)
    ∧ (CreateBlock sampleTime0 (GenesisBlock sampleTime0) sampleCheckout).Hash
        ≠ (CreateBlock sampleTime1 (GenesisBlock sampleTime0) sampleCheckout).Hash := by
  refine ⟨(CreateBlock_timestamp_matters (GenesisBlock sampleTime0) sampleCheckout
    sampleTime0 sampleTime1 (by decide)).1, ?_⟩
  set_option maxRecDepth 100000 in decide

/-- C12. `NewBlockchain()` returns a chain of exactly one block, whose
`PrevHash` is the empty string and on which `validateHash` called with the
stored hash returns true. -/
theorem NewBlockchain_genesis (now : GoString) :
    (NewBlockchain now).blocks = [GenesisBlock now]
    ∧ (NewBlockchain now).blocks.length = 1
    ∧ (GenesisBlock now).PrevHash = []
    ∧ (validateHash (GenesisBlock now) (GenesisBlock now).Hash).1 = true :=
  ⟨rfl, rfl, rfl, (validateHash_fst _ _).2 (recomputeHash_CreateBlock now Block.zero _)⟩

theorem hashInput_congr {a b : Block} (hp : a.Pos = b.Pos) (ht : a.TimeStamp = b.TimeStamp)
    (hd : a.Data = b.Data) (hh : a.PrevHash = b.PrevHash) : hashInput a = hashInput b := by
  unfold hashInput
  rw [hp, ht, hd, hh]

/-- C13. Two blocks that agree on `Pos`, `TimeStamp`, `Data` and `PrevHash`,
whatever their stored hashes, get the same `Hash` from `generateHash` (and are
then equal); a second call of `generateHash` stores the same `Hash` as the
first. -/
theorem generateHash_deterministic (a b : Block) (hp : a.Pos = b.Pos)
    (ht : a.TimeStamp = b.TimeStamp) (hd : a.Data = b.Data) (hh : a.PrevHash = b.PrevHash) :
    (generateHash a).Hash = (generateHash b).Hash
    ∧ generateHash a = generateHash b
    ∧ (generateHash (generateHash a)).Hash = (generateHash a).Hash := by
  have hi : recomputeHash a = recomputeHash b :=
    congrArg (fun x => hexEncode (sha256 x)) (hashInput_congr hp ht hd hh)
  refine ⟨hi, ?_, rfl⟩
  cases a
  cases b
  simp only at hp ht hd hh
  subst hp ht hd hh
  simp only [generateHash, Block.mk.injEq, true_and, and_true]
  exact hi

/-- Instance of C13: the zero block at position 1 and the same block with a
stored hash get the same hash. -/
theorem generateHash_deterministic_witness :
    (generateHash blockAtOne).Hash = (generateHash { blockAtOne with Hash := sampleTime0 }).Hash :=
  (generateHash_deterministic blockAtOne { blockAtOne with Hash := sampleTime0 }
    rfl rfl rfl rfl).1

/-! ## `validateHash` -/

/-- C14. `validateHash(h)` on a block `b` returns true exactly when the hash
recomputed from the `Pos`, `TimeStamp`, `Data` and `PrevHash` of `b` equals `h`. -/
theorem validateHash_iff (b : Block) (h : GoString) :
    (validateHash b h).1 = true ↔ recomputeHash b = h :=
  validateHash_fst b h

/-- C17. After `validateHash(h)`, whatever it returns, the stored hash of the
block is the hash recomputed from its other fields, which are unchanged; a
stored hash that was wrong has been overwritten, and `validateHash` called
again with the hash now stored returns true. -/
theorem validateHash_overwrites (b : Block) (h : GoString) :
    (validateHash b h).2.Hash = recomputeHash b
    ∧ (validateHash b h).2.Hash = recomputeHash (validateHash b h).2
    ∧ (validateHash b h).2.Pos = b.Pos
    ∧ (validateHash b h).2.Data = b.Data
    ∧ (validateHash b h).2.TimeStamp = b.TimeStamp
    ∧ (validateHash b h).2.PrevHash = b.PrevHash
    ∧ (b.Hash ≠ recomputeHash b → (validateHash b h).2.Hash ≠ b.Hash)
    ∧ (validateHash (validateHash b h).2 (validateHash b h).2.Hash).1 = true := by
  rw [validateHash_snd]
  refine ⟨rfl, rfl, rfl, rfl, rfl, rfl, fun hne he => hne ?_, ?_⟩
  · rw [← he]
    rfl
  · rw [validateHash_fst]
    rfl

/-- Instance of C17: the zero block at position 1 stores the empty hash, which
is wrong; after `validateHash` with any argument it stores another hash. -/
theorem validateHash_overwrites_witness :
    (validateHash blockAtOne sampleTime0).2.Hash ≠ blockAtOne.Hash :=
  (validateHash_overwrites blockAtOne sampleTime0).2.2.2.2.2.2.1 (by decide)

/-! ## `AddBlock` never fails and never rejects on reachable chains -/

theorem exists_reachable_of_length (n : Nat) :
    ∃ bc, Reachable bc ∧ bc.blocks.length = n + 1 := by
  induction n with
  | zero => exact ⟨NewBlockchain [], Reachable.init [], rfl⟩
  | succ n ih =>
    obtain ⟨bc, hr, hlen⟩ := ih
    refine ⟨⟨bc.blocks ++ [CreateBlock [] (bc.blocks.getLast hr.ne_nil) BookCheckout.zero]⟩,
      Reachable.add [] BookCheckout.zero hr (AddBlock_of_ne_nil _ _ bc hr.ne_nil), ?_⟩
    simp [hlen]

/-- C15. A chain reachable from `NewBlockchain()` by `AddBlock` calls is
non-empty, so the read of `blocks[len(blocks)-1]` in `AddBlock` is in range:
`AddBlock` returns a chain, which is reachable again and not shorter. -/
theorem Reachable_nonempty (bc : Blockchain) (h : Reachable bc) :
    bc.blocks ≠ []
    ∧ 0 < bc.blocks.length
    ∧ (∃ tail, bc.blocks[bc.blocks.length - 1]? = some tail)
    ∧ ∀ (now : GoString) (d : BookCheckout),
        ∃ bc2, AddBlock now d bc = some bc2 ∧ bc.blocks.length ≤ bc2.blocks.length
          ∧ Reachable bc2 := by
  have hne := h.ne_nil
  refine ⟨hne, List.length_pos.2 hne, ⟨_, getElem?_length_sub_one bc.blocks hne⟩,
    fun now d => ?_⟩
  have hadd := AddBlock_of_ne_nil now d bc hne
  exact ⟨_, hadd, by simp, Reachable.add now d h hadd⟩

/-- Instance of C15 on the sample chain. -/
theorem Reachable_nonempty_witness :
    ∃ bc2, AddBlock sampleTime1 sampleCheckout sampleChain = some bc2
      ∧ sampleChain.blocks.length ≤ bc2.blocks.length ∧ Reachable bc2 :=
  (Reachable_nonempty sampleChain sampleChain_reachable).2.2.2 sampleTime1 sampleCheckout

/-- C16. The candidate that `CreateBlock` builds on a block `p` passes
`validBlock` against `p`, at any clock value and for any payload; so `AddBlock`
appends its candidate to every non-empty chain and never returns the chain
unchanged. -/
theorem CreateBlock_passes_validBlock (now : GoString) (p : Block) (d : BookCheckout) :
    (validBlock (CreateBlock now p d) p).1 = true
    ∧ (∀ (bc : Blockchain) (h : bc.blocks ≠ []),
        AddBlock now d bc = some ⟨bc.blocks ++ [CreateBlock now (bc.blocks.getLast h) d]⟩)
    ∧ ∀ bc : Blockchain, AddBlock now d bc ≠ some bc := by
  refine ⟨by rw [validBlock_CreateBlock], fun bc h => AddBlock_of_ne_nil now d bc h,
    fun bc hbc => ?_⟩
  by_cases hne : bc.blocks = []
  · have : bc = ⟨[]⟩ := by cases bc; simp_all
    rw [this, AddBlock_nil] at hbc
    cases hbc
  · rw [AddBlock_of_ne_nil now d bc hne] at hbc
    have hlen := congrArg (fun c : Blockchain => c.blocks.length) (Option.some.inj hbc)
    simp at hlen

/-- Instance of C16: `AddBlock` on the genesis chain returns the sample chain. -/
theorem CreateBlock_passes_validBlock_witness :
    AddBlock sampleTime1 sampleCheckout (NewBlockchain sampleTime0) = some sampleChain :=
  (CreateBlock_passes_validBlock sampleTime1 Block.zero sampleCheckout).2.1
    (NewBlockchain sampleTime0) (List.cons_ne_nil _ _)

/-! ## The position as hash material -/

theorem encodeRune_inj_scalar {r q : Nat} (hr : r ≤ 0x10FFFF) (hq : q ≤ 0x10FFFF)
    (hrs : ¬ (0xD800 ≤ r ∧ r ≤ 0xDFFF)) (hqs : ¬ (0xD800 ≤ q ∧ q ≤ 0xDFFF))
    (h : encodeRune r = encodeRune q) : r = q := by
  unfold encodeRune at h
  split_ifs at h <;>
    simp only [List.cons.injEq, Fin.ext_iff, byteOf_val, and_true, reduceCtorEq] at h <;>
    omega

theorem intToString_inj_scalar {p q : Int} (hp : 0 ≤ p ∧ p ≤ 0x10FFFF)
    (hq : 0 ≤ q ∧ q ≤ 0x10FFFF) (hps : ¬ (0xD800 ≤ p ∧ p ≤ 0xDFFF))
    (hqs : ¬ (0xD800 ≤ q ∧ q ≤ 0xDFFF)) (h : intToString p = intToString q) : p = q := by
  unfold intToString at h
  rw [if_pos hp, if_pos hq] at h
  have := encodeRune_inj_scalar (r := p.toNat) (q := q.toNat) (by omega) (by omega)
    (by omega) (by omega) h
  omega

/-- Where the position encoding is unambiguous: two blocks that agree on
`TimeStamp`, `Data` and `PrevHash` and whose positions are different code points
(at most U+10FFFF, no surrogates) have different hash inputs. -/
theorem hashInput_ne_of_scalar_pos {a b : Block} (ht : a.TimeStamp = b.TimeStamp)
    (hd : a.Data = b.Data) (hh : a.PrevHash = b.PrevHash)
    (ha : 0 ≤ a.Pos ∧ a.Pos ≤ 0x10FFFF) (hb : 0 ≤ b.Pos ∧ b.Pos ≤ 0x10FFFF)
    (has : ¬ (0xD800 ≤ a.Pos ∧ a.Pos ≤ 0xDFFF)) (hbs : ¬ (0xD800 ≤ b.Pos ∧ b.Pos ≤ 0xDFFF))
    (hne : a.Pos ≠ b.Pos) : hashInput a ≠ hashInput b := by
  unfold hashInput
  rw [ht, hd, hh]
  intro heq
  exact hne (intToString_inj_scalar ha hb has hbs
    (List.append_cancel_right (List.append_cancel_right (List.append_cancel_right heq))))

/-- C18, evaluated at the positions 55296 and 55297: `string(Pos)` is the same
string for both, so two blocks that differ in nothing else feed the same string
to SHA-256 and get the same hash; blocks with these two positions occur in a
reachable chain, at the indices 55295 and 55296. -/
theorem position_encoding_collides :
    blockAtD800.Pos ≠ blockAtD801.Pos
    ∧ intToString blockAtD800.Pos = intToString blockAtD801.Pos
    ∧ hashInput blockAtD800 = hashInput blockAtD801
    ∧ (generateHash blockAtD800).Hash = (generateHash blockAtD801).Hash
    ∧ ∃ (bc : Blockchain) (a b : Block), Reachable bc ∧ bc.blocks[55295]? = some a
        ∧ bc.blocks[55296]? = some b ∧ a.Pos = 55296 ∧ b.Pos = 55297
        ∧ intToString a.Pos = intToString b.Pos := by
  have hi : hashInput blockAtD800 = hashInput blockAtD801 := by decide
  refine ⟨by decide, by decide, hi, congrArg (fun x => hexEncode (sha256 x)) hi, ?_⟩
  obtain ⟨bc, hr, hlen⟩ := exists_reachable_of_length 55296
  have h1 : 55295 < bc.blocks.length := by omega
  have h2 : 55296 < bc.blocks.length := by omega
  have ha := hr.pos_eq 55295 _ (List.getElem?_eq_getElem h1)
  have hb := hr.pos_eq 55296 _ (List.getElem?_eq_getElem h2)
  have ea : wrapInt ((55295 : Nat) + 1) = 55296 := by decide
  have eb : wrapInt ((55296 : Nat) + 1) = 55297 := by decide
  rw [ea] at ha
  rw [eb] at hb
  refine ⟨bc, _, _, hr, List.getElem?_eq_getElem h1, List.getElem?_eq_getElem h2, ha, hb, ?_⟩
  rw [ha, hb]
  decide

end BookLedger
